import Mathlib

/-!
Shallow embedding of the `terminus` trace-viewer core (src/trace.rs and
src/main.rs) and proofs about it.

Durations are modelled as exact nanosecond counts (`Nat`): Rust's
`std::time::Duration` is a pair of a `u64` seconds count and a `u32`
sub-second nanosecond count, i.e. an exact non-negative nanosecond value.
Strings are modelled as `String` where they are only compared for equality
and as `List Char` where the code walks them character by character
(Rust `String` indexing in the command interpreter is by `char`).
-/

namespace Terminus

/-! ## Data model (src/trace.rs) -/

/-- `Fields` from trace.rs: the `fields` object of one trace line.
`time_busy` and `time_idle` are `std::time::Duration` values, modelled as
exact nanosecond counts. -/
structure Fields where
  message : String
  time_busy : Nat
  time_idle : Nat
deriving DecidableEq, Repr

/-- `Span` from trace.rs. -/
structure Span where
  id : Option Nat
  name : String
deriving DecidableEq, Repr

/-- `Trace` from trace.rs: one decoded trace line. -/
structure Trace where
  target : String
  fields : Fields
  span : Span
deriving DecidableEq, Repr

/-- `Trace::total_duration`: `self.fields.time_busy + self.fields.time_idle`. -/
def Trace.total_duration (t : Trace) : Nat :=
  t.fields.time_busy + t.fields.time_idle

/-- `FrameTrace` from trace.rs: one aggregated frame. -/
structure FrameTrace where
  trace : Trace
  child_traces : List Trace
deriving DecidableEq, Repr

/-! ## Frame aggregation (src/trace.rs, `read_trace_file`, lines 74-88)

The aggregation loop of `read_trace_file`, operating on the already decoded
record sequence (`raw_traces`).  File I/O and JSON decoding of the
individual lines are outside the loop and not needed by any claim about
aggregation. -/

/-- The loop body of `read_trace_file`: `acc` is the mutable `child_traces`
vector, and the produced list is the `result` vector.  On a record with
`span.name == "frame"` the *current* accumulator is moved into the new
`FrameTrace` and the accumulator is reset; any other record is appended to
the accumulator.  Whatever remains in the accumulator when the input ends
is dropped (the Rust function returns only `result`). -/
def aggregateGo : List Trace → List Trace → List FrameTrace
  | [], _ => []
  | t :: rest, acc =>
    if t.span.name = "frame" then
      ⟨t, acc⟩ :: aggregateGo rest []
    else
      aggregateGo rest (acc ++ [t])

/-- The aggregation performed by `read_trace_file` on the decoded records. -/
def read_trace_aggregate (raw_traces : List Trace) : List FrameTrace :=
  aggregateGo raw_traces []

/-! ### Aggregation lemmas -/

theorem aggregateGo_all_nonframe (l : List Trace) :
    ∀ acc, (∀ u ∈ l, u.span.name ≠ "frame") → aggregateGo l acc = [] := by
  induction l with
  | nil => intro acc _; rfl
  | cons t rest ih =>
    intro acc h
    have ht : t.span.name ≠ "frame" := h t (List.mem_cons_self t rest)
    simp only [aggregateGo, if_neg ht]
    exact ih _ (fun u hu => h u (List.mem_cons_of_mem t hu))

theorem aggregateGo_append_frame (pre : List Trace) :
    ∀ (acc : List Trace) (t : Trace) (rest : List Trace),
      (∀ u ∈ pre, u.span.name ≠ "frame") → t.span.name = "frame" →
      aggregateGo (pre ++ t :: rest) acc = ⟨t, acc ++ pre⟩ :: aggregateGo rest [] := by
  induction pre with
  | nil =>
    intro acc t rest _ ht
    simp [aggregateGo, ht]
  | cons u pre ih =>
    intro acc t rest hpre ht
    have hu : u.span.name ≠ "frame" := hpre u (List.mem_cons_self u pre)
    simp only [List.cons_append, aggregateGo, if_neg hu, List.append_eq]
    rw [ih (acc ++ [u]) t rest (fun v hv => hpre v (List.mem_cons_of_mem u hv)) ht]
    simp

theorem aggregateGo_append_trailing (l : List Trace) :
    ∀ (acc trail : List Trace), (∀ u ∈ trail, u.span.name ≠ "frame") →
      aggregateGo (l ++ trail) acc = aggregateGo l acc := by
  induction l with
  | nil =>
    intro acc trail htrail
    simp only [List.nil_append]
    exact aggregateGo_all_nonframe trail acc htrail
  | cons t rest ih =>
    intro acc trail htrail
    by_cases ht : t.span.name = "frame" <;>
      simp only [List.cons_append, aggregateGo, if_pos, if_neg, ht, ite_true, ite_false,
        List.append_eq] <;>
      rw [ih _ trail htrail]

/-! ### Concrete example records for the aggregation claims -/

/-- A frame-boundary record (span name `"frame"`), target `"A"`. -/
def exFrameA : Trace := ⟨"A", ⟨"close", 1, 1⟩, ⟨some 0, "frame"⟩⟩

/-- A second frame-boundary record, target `"A2"`. -/
def exFrameA2 : Trace := ⟨"A2", ⟨"close", 2, 2⟩, ⟨some 1, "frame"⟩⟩

/-- A non-frame record, target `"B"`. -/
def exChildB : Trace := ⟨"B", ⟨"close", 3, 3⟩, ⟨none, "calc"⟩⟩

/-- A non-frame record, target `"C"`. -/
def exChildC : Trace := ⟨"C", ⟨"close", 4, 4⟩, ⟨none, "draw"⟩⟩

/-- A non-frame record, target `"D"`. -/
def exChildD : Trace := ⟨"D", ⟨"close", 5, 5⟩, ⟨none, "tick"⟩⟩

/-- Projection of an aggregated frame to (frame target, child targets),
used to state concrete aggregation results readably. -/
def frameShape (f : FrameTrace) : String × List String :=
  (f.trace.target, f.child_traces.map Trace.target)

/-! ## Duration codec (src/trace.rs, `TimeUnits::get` lines 99-111 and
`deserialize_duration` lines 117-126)

`fundu_core::time::TimeUnit` and `Multiplier` are mirrored; the unit table
`TimeUnits::get` is translated byte-for-byte from the source.  Note that the
microsecond arm of the source `match` is the three characters
U+00C2 U+00B5 's' (the bytes `c3 82 c2 b5 73`, i.e. `"Âµs"`, a mojibake of
`"µs"`), not the two-character suffix `"µs"` (U+00B5 's'). -/

/-- `fundu_core::time::TimeUnit` (the variants used by the source). -/
inductive TimeUnit where
  | NanoSecond
  | MicroSecond
  | MilliSecond
  | Second
  | Minute
  | Hour
  | Day
  | Week
deriving DecidableEq, Repr

/-- `fundu_core::time::Multiplier(coefficient, exponent)`. The source always
uses `Multiplier(1, 0)`, the identity multiplier. -/
structure Multiplier where
  coefficient : Int
  exponent : Int
deriving DecidableEq, Repr

/-- `TimeUnits::get` from trace.rs: the unit-suffix table handed to the
fundu parser.  The microsecond key is the mojibake `"\xC2\xB5s"`
(U+00C2 U+00B5 's') exactly as in the source bytes. -/
def TimeUnits.get (identifier : String) : Option (TimeUnit × Multiplier) :=
  if identifier = "ns" then some (TimeUnit.NanoSecond, ⟨1, 0⟩)
  else if identifier = "\xC2\xB5s" then some (TimeUnit.MicroSecond, ⟨1, 0⟩)
  else if identifier = "ms" then some (TimeUnit.MilliSecond, ⟨1, 0⟩)
  else if identifier = "s" then some (TimeUnit.Second, ⟨1, 0⟩)
  else if identifier = "m" then some (TimeUnit.Minute, ⟨1, 0⟩)
  else if identifier = "h" then some (TimeUnit.Hour, ⟨1, 0⟩)
  else if identifier = "d" then some (TimeUnit.Day, ⟨1, 0⟩)
  else if identifier = "w" then some (TimeUnit.Week, ⟨1, 0⟩)
  else none

/-- Modelled from the spec: the nanosecond value of each `fundu_core`
time unit (`ns`=1, `µs`=1e3, `ms`=1e6, `s`=1e9, `m`=60e9, `h`=3600e9,
`d`=86400e9, `w`=604800e9).  The `fundu_core` crate is an external
dependency whose sources are not part of this repository. -/
def TimeUnit.nanos : TimeUnit → Nat
  | .NanoSecond => 1
  | .MicroSecond => 1000
  | .MilliSecond => 1000000
  | .Second => 1000000000
  | .Minute => 60000000000
  | .Hour => 3600000000000
  | .Day => 86400000000000
  | .Week => 604800000000000

/-- Modelled from the spec: `fundu_core::parse::Parser::parse` on a token
consisting of an integral decimal magnitude immediately followed by a unit
suffix (as invoked by `deserialize_duration`) looks the suffix up in the
supplied `TimeUnitsLike` table and, on success, yields
magnitude × unit-nanoseconds × coefficient × 10^exponent nanoseconds; an
unknown suffix is a parse error.  The `fundu_core` parser itself is an
external dependency whose sources are not part of this repository. -/
def parse_duration (magnitude : Nat) (suffix : String) : Option Nat :=
  match TimeUnits.get suffix with
  | some (u, m) => some (magnitude * u.nanos * m.coefficient.toNat * 10 ^ m.exponent.toNat)
  | none => none

/-! ## Application state (src/main.rs)

`State` keeps the fields that the command interpreter reads or writes:
`trace_data`, the text-entry buffer `input` (a Rust `String`, modelled as
its character sequence since the interpreter walks it by `char`),
`character_index`, `input_mode`, `frame_state` and `detail_state`.  The
render-only chart fields `max : f64` and `data : Vec<(f64, f64)>` are
written once at construction and never touched by `exec_command`; they are
omitted.  A Rust panic is modelled by returning `none`. -/

/-- `InputMode` from main.rs. -/
inductive InputMode where
  | Normal
  | Editing
deriving DecidableEq, Repr

/-- `FrameState` from main.rs: the `(start, end)` filter bounds
(`end` is a Lean keyword, hence `end_`). -/
structure FrameState where
  start : Nat
  end_ : Nat
deriving DecidableEq, Repr

/-- `DetailState` from main.rs. -/
structure DetailState where
  frame_trace : FrameTrace
deriving DecidableEq, Repr

/-- The interpreter-relevant part of `State` from main.rs. -/
structure State where
  trace_data : List FrameTrace
  input : List Char
  input_mode : InputMode
  character_index : Nat
  frame_state : Option FrameState
  detail_state : Option DetailState
deriving DecidableEq, Repr

/-! ## String helpers used by `exec_command`

These model the Rust standard-library routines the interpreter calls:
`str::split_whitespace`, `str::split("..")` and `str::parse::<usize>`. -/

/-- `char::is_whitespace` (the `White_Space` property): the 25 Unicode
white-space code points. -/
def isRustWhitespace (c : Char) : Bool :=
  ([0x09, 0x0A, 0x0B, 0x0C, 0x0D, 0x20, 0x85, 0xA0, 0x1680,
    0x2000, 0x2001, 0x2002, 0x2003, 0x2004, 0x2005, 0x2006, 0x2007,
    0x2008, 0x2009, 0x200A, 0x2028, 0x2029, 0x202F, 0x205F, 0x3000] : List Nat).contains c.toNat

/-- Worker for `splitWhitespace`; `cur` holds the current token reversed. -/
def splitWhitespaceGo : List Char → List Char → List (List Char)
  | [], cur => if cur.isEmpty then [] else [cur.reverse]
  | c :: cs, cur =>
    if isRustWhitespace c then
      if cur.isEmpty then splitWhitespaceGo cs [] else cur.reverse :: splitWhitespaceGo cs []
    else
      splitWhitespaceGo cs (c :: cur)

/-- `str::split_whitespace`: the maximal non-empty runs of
non-white-space characters, in order. -/
def splitWhitespace (s : List Char) : List (List Char) :=
  splitWhitespaceGo s []

/-- Worker for `splitOnDotDot`; splits at each leftmost, non-overlapping
occurrence of `".."`, keeping empty pieces, exactly like
`str::split("..")`. -/
def splitOnDotDotGo : List Char → List Char → List (List Char)
  | [], cur => [cur.reverse]
  | [c], cur => [(c :: cur).reverse]
  | c1 :: c2 :: cs, cur =>
    if c1 = '.' ∧ c2 = '.' then
      cur.reverse :: splitOnDotDotGo cs []
    else
      splitOnDotDotGo (c2 :: cs) (c1 :: cur)

/-- `str::split("..")` collected into a vector, as in
`let s: Vec<&str> = str.split("..").collect()`. -/
def splitOnDotDot (s : List Char) : List (List Char) :=
  splitOnDotDotGo s []

/-- ASCII digit test, as used by `str::parse::<usize>` (only ASCII digits
are accepted for radix 10). -/
def isAsciiDigit (c : Char) : Bool :=
  48 ≤ c.toNat && c.toNat ≤ 57

/-- Accumulate the decimal value of a digit string; `none` on the first
non-digit character. -/
def digitsVal : List Char → Nat → Option Nat
  | [], acc => some acc
  | c :: cs, acc =>
    if isAsciiDigit c then digitsVal cs (acc * 10 + (c.toNat - 48)) else none

/-- `str::parse::<usize>`: an optional leading `'+'`, then one or more
ASCII digits, and the value must fit in the 64-bit `usize`; anything else
is a parse error. -/
def parseUsize (s : List Char) : Option Nat :=
  let body := match s with
    | '+' :: rest => rest
    | other => other
  if body.isEmpty then none
  else
    match digitsVal body 0 with
    | some n => if n < 2 ^ 64 then some n else none
    | none => none

/-! ## `:f inspect max` (src/main.rs, `exec_frame_inspect` lines 184-209) -/

/-- Insert `x` into a list sorted by descending `total_duration`, after all
elements whose duration is at least `x`'s. -/
def insertDesc (x : Trace) : List Trace → List Trace
  | [] => [x]
  | y :: ys =>
    if x.total_duration ≤ y.total_duration then y :: insertDesc x ys
    else x :: y :: ys

/-- The stable descending sort performed by
`child_traces.sort_by(|a, b| b.total_duration().partial_cmp(&a.total_duration()).unwrap())`:
Rust's `sort_by` is a stable sort, and the comparator orders by descending
`total_duration` (`Duration` is totally ordered, so the `unwrap` never
panics).  Modelled as a stable insertion sort processing the list left to
right. -/
def sortChildren (l : List Trace) : List Trace :=
  l.foldl (fun acc x => insertDesc x acc) []

/-- The scan loop of `exec_frame_inspect`: `m` is the running `max` (the
code compares `duration.as_millis_f64()` values with `>`; the conversion
from an exact `Duration` to `f64` milliseconds is modelled as the exact
nanosecond value, on which the same strict comparison is performed) and
`mt` is `max_trace`. -/
def inspectLoop : Nat → FrameTrace → List FrameTrace → FrameTrace
  | _, mt, [] => mt
  | m, mt, ft :: rest =>
    if ft.trace.total_duration > m then
      inspectLoop ft.trace.total_duration ft rest
    else
      inspectLoop m mt rest

/-- `App::exec_frame_inspect`: on `Some("max")`, scan all frames starting
from `max = 0.0` and `max_trace = &trace_data[0]` (an out-of-bounds panic,
modelled as `none`, when `trace_data` is empty), then store a
`DetailState` holding a clone of the selected frame with its children
sorted by descending `total_duration`.  Any other argument is a no-op. -/
def exec_frame_inspect (s : State) (cmd : Option (List Char)) : Option State :=
  if cmd = some "max".data then
    match s.trace_data with
    | [] => none
    | first :: rest =>
      let max_trace := inspectLoop 0 first (first :: rest)
      some { s with
              detail_state :=
                some ⟨⟨max_trace.trace, sortChildren max_trace.child_traces⟩⟩ }
  else
    some s

/-! ## `exec_command` (src/main.rs, lines 148-182) -/

/-- The `// frame commands` block of `App::exec_command` (the body of the
`if self.state.input.starts_with(":f")` conditional, with the fall-through
for non-`:f` input): produces the state before the final buffer clearing,
or `none` where the Rust code panics (the two `unwrap`s on range-bound
parsing, and the out-of-bounds index in `exec_frame_inspect`). -/
def exec_frame_commands (s : State) : Option State :=
  if ":f".data.isPrefixOf s.input then
    match splitWhitespace s.input with
    | _ :: str :: rest =>
      if str = "all".data then
        some { s with frame_state := none }
      else if str = "inspect".data then
        exec_frame_inspect s rest.head?
      else
        match splitOnDotDot str with
        | [lo, hi] =>
          match parseUsize lo, parseUsize hi with
          | some lower, some upper =>
            some { s with frame_state := some ⟨lower, upper⟩ }
          | _, _ => none
        | _ => some s
    | _ => some s
  else
    some s

/-- `App::exec_command`: returns `some (state', terminate)` on normal
completion and `none` where the Rust code panics.  `":q"` returns `true`
immediately — without clearing the input buffer; on every other path the
buffer is cleared and the cursor reset before returning `false`. -/
def exec_command (s : State) : Option (State × Bool) :=
  if s.input = ":q".data then
    some (s, true)
  else
    (exec_frame_commands s).map
      (fun s1 => ({ s1 with input := [], character_index := 0 }, false))

/-! ## Lemmas about the stable descending sort -/

/-- Descending order on traces by `total_duration`. -/
def DurDesc (a b : Trace) : Prop :=
  b.total_duration ≤ a.total_duration

instance : DecidableRel DurDesc := fun a b => Nat.decLe b.total_duration a.total_duration

theorem insertDesc_perm (x : Trace) (l : List Trace) :
    (insertDesc x l).Perm (x :: l) := by
  induction l with
  | nil => exact List.Perm.refl _
  | cons y ys ih =>
    simp only [insertDesc]
    by_cases h : x.total_duration ≤ y.total_duration
    · rw [if_pos h]
      exact ((ih.cons y).trans (List.Perm.swap x y ys)).symm.symm
    · rw [if_neg h]

theorem insertDesc_mem {z x : Trace} {l : List Trace} (h : z ∈ insertDesc x l) :
    z = x ∨ z ∈ l := by
  have := (insertDesc_perm x l).mem_iff.mp h
  simpa using this

theorem insertDesc_pairwise (x : Trace) (l : List Trace)
    (h : l.Pairwise DurDesc) : (insertDesc x l).Pairwise DurDesc := by
  induction l with
  | nil => simp [insertDesc, List.pairwise_singleton]
  | cons y ys ih =>
    rcases List.pairwise_cons.mp h with ⟨hy, hys⟩
    simp only [insertDesc]
    by_cases hxy : x.total_duration ≤ y.total_duration
    · rw [if_pos hxy]
      refine List.pairwise_cons.mpr ⟨?_, ih hys⟩
      intro z hz
      rcases insertDesc_mem hz with rfl | hz'
      · exact hxy
      · exact hy z hz'
    · rw [if_neg hxy]
      have hyx : y.total_duration ≤ x.total_duration := Nat.le_of_lt (Nat.lt_of_not_le hxy)
      refine List.pairwise_cons.mpr ⟨?_, h⟩
      intro z hz
      rcases List.mem_cons.mp hz with rfl | hz'
      · exact hyx
      · exact Nat.le_trans (hy z hz') hyx

theorem insertDesc_filter (x : Trace) (d : Nat) (l : List Trace)
    (h : l.Pairwise DurDesc) :
    (insertDesc x l).filter (fun c => c.total_duration == d)
      = l.filter (fun c => c.total_duration == d)
        ++ (if x.total_duration == d then [x] else []) := by
  induction l with
  | nil =>
    by_cases hx : x.total_duration = d
    · simp [insertDesc, List.filter, hx]
    · have hxf : (x.total_duration == d) = false := beq_false_of_ne hx
      simp [insertDesc, List.filter, hxf]
  | cons y ys ih =>
    rcases List.pairwise_cons.mp h with ⟨hy, hys⟩
    simp only [insertDesc]
    by_cases hxy : x.total_duration ≤ y.total_duration
    · rw [if_pos hxy]
      by_cases hpy : y.total_duration = d
      · simp only [List.filter_cons, hpy, beq_self_eq_true, ite_true, List.cons_append]
        rw [ih hys]
      · have : (y.total_duration == d) = false := beq_false_of_ne hpy
        simp only [List.filter_cons, this, ite_false, Bool.false_eq_true]
        rw [ih hys]
    · rw [if_neg hxy]
      have hylt : y.total_duration < x.total_duration := Nat.lt_of_not_le hxy
      by_cases hpx : x.total_duration = d
      · have hfy : ∀ z ∈ y :: ys, ¬(z.total_duration == d) = true := by
          intro z hz
          have hzley : z.total_duration ≤ y.total_duration := by
            rcases List.mem_cons.mp hz with rfl | hz'
            · exact Nat.le_refl _
            · exact hy z hz'
          have : z.total_duration < d := hpx ▸ Nat.lt_of_le_of_lt hzley hylt
          simp [Nat.ne_of_lt this]
        have hnil : (y :: ys).filter (fun c => c.total_duration == d) = [] :=
          List.filter_eq_nil_iff.mpr hfy
        simp [List.filter_cons, hpx, hnil]
      · have hx : (x.total_duration == d) = false := beq_false_of_ne hpx
        simp [List.filter_cons, hx]

theorem sortFold_perm (l : List Trace) :
    ∀ acc, (l.foldl (fun acc x => insertDesc x acc) acc).Perm (acc ++ l) := by
  induction l with
  | nil => intro acc; simp
  | cons x xs ih =>
    intro acc
    simp only [List.foldl_cons]
    refine (ih (insertDesc x acc)).trans ?_
    refine ((insertDesc_perm x acc).append_right xs).trans ?_
    exact List.perm_middle.symm

theorem sortFold_pairwise (l : List Trace) :
    ∀ acc, acc.Pairwise DurDesc →
      (l.foldl (fun acc x => insertDesc x acc) acc).Pairwise DurDesc := by
  induction l with
  | nil => intro acc h; exact h
  | cons x xs ih =>
    intro acc h
    exact ih _ (insertDesc_pairwise x acc h)

theorem sortFold_filter (l : List Trace) (d : Nat) :
    ∀ acc, acc.Pairwise DurDesc →
      (l.foldl (fun acc x => insertDesc x acc) acc).filter (fun c => c.total_duration == d)
        = acc.filter (fun c => c.total_duration == d)
          ++ l.filter (fun c => c.total_duration == d) := by
  induction l with
  | nil => intro acc _; simp
  | cons x xs ih =>
    intro acc h
    simp only [List.foldl_cons]
    rw [ih _ (insertDesc_pairwise x acc h), insertDesc_filter x d acc h]
    by_cases hx : x.total_duration = d
    · simp [List.filter_cons, hx]
    · have : (x.total_duration == d) = false := beq_false_of_ne hx
      simp [List.filter_cons, this]

theorem sortChildren_perm (l : List Trace) : (sortChildren l).Perm l := by
  simpa using sortFold_perm l []

theorem sortChildren_pairwise (l : List Trace) :
    (sortChildren l).Pairwise DurDesc :=
  sortFold_pairwise l [] List.Pairwise.nil

theorem sortChildren_filter (l : List Trace) (d : Nat) :
    (sortChildren l).filter (fun c => c.total_duration == d)
      = l.filter (fun c => c.total_duration == d) := by
  simpa using sortFold_filter l d [] List.Pairwise.nil

/-! ## Lemmas about the `inspect max` scan loop -/

theorem inspectLoop_spec (l : List FrameTrace) :
    ∀ (mt : FrameTrace) (r : FrameTrace),
      inspectLoop mt.trace.total_duration mt l = r →
      (r = mt ∧ ∀ ft ∈ l, ft.trace.total_duration ≤ mt.trace.total_duration)
      ∨ (∃ pre post, l = pre ++ r :: post
          ∧ mt.trace.total_duration < r.trace.total_duration
          ∧ (∀ ft ∈ pre, ft.trace.total_duration < r.trace.total_duration)
          ∧ (∀ ft ∈ l, ft.trace.total_duration ≤ r.trace.total_duration)) := by
  induction l with
  | nil =>
    intro mt r h
    left
    exact ⟨h.symm, by simp⟩
  | cons ft rest ih =>
    intro mt r h
    simp only [inspectLoop] at h
    by_cases hc : ft.trace.total_duration > mt.trace.total_duration
    · rw [if_pos hc] at h
      rcases ih ft r h with ⟨rfl, hrest⟩ | ⟨pre, post, hdec, hlt, hpre, hall⟩
      · right
        refine ⟨[], rest, rfl, hc, by simp, ?_⟩
        intro g hg
        rcases List.mem_cons.mp hg with rfl | hg'
        · exact Nat.le_refl _
        · exact hrest g hg'
      · right
        refine ⟨ft :: pre, post, by simp [hdec], Nat.lt_trans hc hlt, ?_, ?_⟩
        · intro g hg
          rcases List.mem_cons.mp hg with rfl | hg'
          · exact hlt
          · exact hpre g hg'
        · intro g hg
          rcases List.mem_cons.mp hg with rfl | hg'
          · exact Nat.le_of_lt hlt
          · exact hall g hg'
    · rw [if_neg hc] at h
      have hle : ft.trace.total_duration ≤ mt.trace.total_duration := Nat.le_of_not_lt hc
      rcases ih mt r h with ⟨rfl, hrest⟩ | ⟨pre, post, hdec, hlt, hpre, hall⟩
      · left
        refine ⟨rfl, ?_⟩
        intro g hg
        rcases List.mem_cons.mp hg with rfl | hg'
        · exact hle
        · exact hrest g hg'
      · right
        refine ⟨ft :: pre, post, by simp [hdec], hlt, ?_, ?_⟩
        · intro g hg
          rcases List.mem_cons.mp hg with rfl | hg'
          · exact Nat.lt_of_le_of_lt hle hlt
          · exact hpre g hg'
        · intro g hg
          rcases List.mem_cons.mp hg with rfl | hg'
          · exact Nat.le_trans hle (Nat.le_of_lt hlt)
          · exact hall g hg'

theorem inspectLoop_head (first : FrameTrace) (rest : List FrameTrace) :
    inspectLoop 0 first (first :: rest)
      = inspectLoop first.trace.total_duration first rest := by
  simp only [inspectLoop]
  by_cases hc : first.trace.total_duration > 0
  · rw [if_pos hc]
  · rw [if_neg hc]
    have : first.trace.total_duration = 0 := Nat.eq_zero_of_not_pos hc
    rw [this]

/-- The frame chosen by the `:f inspect max` scan is a first occurrence of
the maximal `total_duration` in the frame sequence. -/
theorem inspect_select_spec (first : FrameTrace) (rest : List FrameTrace) :
    ∃ pre post,
      first :: rest = pre ++ (inspectLoop 0 first (first :: rest)) :: post
      ∧ (∀ ft ∈ pre,
          ft.trace.total_duration < (inspectLoop 0 first (first :: rest)).trace.total_duration)
      ∧ (∀ ft ∈ first :: rest,
          ft.trace.total_duration ≤ (inspectLoop 0 first (first :: rest)).trace.total_duration) := by
  obtain ⟨r, hr⟩ : ∃ r, inspectLoop first.trace.total_duration first rest = r := ⟨_, rfl⟩
  have hr0 : inspectLoop 0 first (first :: rest) = r := (inspectLoop_head first rest).trans hr
  rw [hr0]
  rcases inspectLoop_spec rest first r hr with ⟨rfl, hrest⟩ | ⟨pre, post, hdec, hlt, hpre, hall⟩
  · refine ⟨[], rest, rfl, by simp, ?_⟩
    intro g hg
    rcases List.mem_cons.mp hg with rfl | hg'
    · exact Nat.le_refl _
    · exact hrest g hg'
  · refine ⟨first :: pre, post, by rw [hdec]; rfl, ?_, ?_⟩
    · intro g hg
      rcases List.mem_cons.mp hg with rfl | hg'
      · exact hlt
      · exact hpre g hg'
    · intro g hg
      rcases List.mem_cons.mp hg with rfl | hg'
      · exact Nat.le_of_lt hlt
      · exact hall g hg'

/-! ## Decimal numerals

`natDigits n` is the decimal numeral of `n` as a character list (most
significant digit first); it is used to state theorems about commands of
the shape `:f <lower>..<upper>` for arbitrary numeric bounds. -/

/-- Worker for `natDigits`: the decimal digits of `n`, most significant
first, computed with a structural fuel argument so that the definition
reduces inside the kernel (`fuel ≥ n` suffices). -/
def natDigitsGo : Nat → Nat → List Char
  | _, 0 => []
  | 0, _ => []
  | fuel + 1, n + 1 =>
    natDigitsGo fuel ((n + 1) / 10) ++ [Char.ofNat (48 + (n + 1) % 10)]

/-- The decimal numeral of `n`, most significant digit first. -/
def natDigits (n : Nat) : List Char :=
  if n = 0 then ['0'] else natDigitsGo n n

theorem char_toNat_ofNat {m : Nat} (h : m < 0xD800) : (Char.ofNat m).toNat = m := by
  unfold Char.ofNat
  rw [dif_pos (Or.inl h)]
  rfl

theorem natDigitsGo_toNat (fuel : Nat) :
    ∀ n c, c ∈ natDigitsGo fuel n → 48 ≤ c.toNat ∧ c.toNat ≤ 57 := by
  induction fuel with
  | zero =>
    intro n c hc
    cases n <;> simp [natDigitsGo] at hc
  | succ fuel ih =>
    intro n c hc
    cases n with
    | zero => simp [natDigitsGo] at hc
    | succ m =>
      simp only [natDigitsGo, List.mem_append, List.mem_singleton] at hc
      rcases hc with hc | rfl
      · exact ih _ c hc
      · have hlt : (m + 1) % 10 < 10 := Nat.mod_lt _ (by norm_num)
        have := char_toNat_ofNat (m := 48 + (m + 1) % 10) (by omega)
        omega

theorem natDigitsGo_ne_nil {fuel n : Nat} (hn : 0 < n) (hf : 0 < fuel) :
    natDigitsGo fuel n ≠ [] := by
  cases n with
  | zero => exact absurd hn (by simp)
  | succ m =>
    cases fuel with
    | zero => exact absurd hf (by simp)
    | succ f => simp [natDigitsGo]

theorem digitsVal_append (l1 l2 : List Char) :
    ∀ acc, digitsVal (l1 ++ l2) acc
      = match digitsVal l1 acc with
        | some m => digitsVal l2 m
        | none => none := by
  induction l1 with
  | nil => intro acc; rfl
  | cons c cs ih =>
    intro acc
    by_cases hc : isAsciiDigit c = true
    · simp only [List.cons_append, digitsVal, hc, ite_true]
      exact ih _
    · simp only [List.cons_append, digitsVal, hc, Bool.false_eq_true, ite_false]

theorem natDigitsGo_val (fuel : Nat) :
    ∀ n acc, n ≤ fuel →
      digitsVal (natDigitsGo fuel n) acc
        = some (acc * 10 ^ (natDigitsGo fuel n).length + n) := by
  induction fuel with
  | zero =>
    intro n acc hn
    have : n = 0 := Nat.le_zero.mp hn
    subst this
    simp [natDigitsGo, digitsVal]
  | succ fuel ih =>
    intro n acc hn
    cases n with
    | zero => simp [natDigitsGo, digitsVal]
    | succ m =>
      have hdiv : (m + 1) / 10 ≤ fuel := by
        have h1 : (m + 1) / 10 < m + 1 := Nat.div_lt_self (by omega) (by norm_num)
        omega
      have hmod : (m + 1) % 10 < 10 := Nat.mod_lt _ (by norm_num)
      have htn : (Char.ofNat (48 + (m + 1) % 10)).toNat = 48 + (m + 1) % 10 :=
        char_toNat_ofNat (by omega)
      have hdig : isAsciiDigit (Char.ofNat (48 + (m + 1) % 10)) = true := by
        simp only [isAsciiDigit, htn]
        simp only [Bool.and_eq_true, decide_eq_true_eq]
        omega
      simp only [natDigitsGo, digitsVal_append, ih ((m + 1) / 10) acc hdiv]
      simp only [digitsVal, hdig, ite_true, htn, List.length_append,
        List.length_singleton]
      congr 1
      have hrw : 48 + (m + 1) % 10 - 48 = (m + 1) % 10 := by omega
      rw [hrw, pow_succ]
      have hdm := Nat.div_add_mod (m + 1) 10
      set q := (m + 1) / 10
      set r := (m + 1) % 10
      set L := (natDigitsGo fuel q).length
      ring_nf
      omega

theorem natDigits_toNat {n : Nat} {c : Char} (hc : c ∈ natDigits n) :
    48 ≤ c.toNat ∧ c.toNat ≤ 57 := by
  unfold natDigits at hc
  by_cases hn : n = 0
  · rw [if_pos hn] at hc
    rcases List.mem_singleton.mp hc with rfl
    exact ⟨by decide, by decide⟩
  · rw [if_neg hn] at hc
    exact natDigitsGo_toNat n n c hc

theorem natDigits_ne_nil (n : Nat) : natDigits n ≠ [] := by
  unfold natDigits
  by_cases hn : n = 0
  · simp [hn]
  · rw [if_neg hn]
    exact natDigitsGo_ne_nil (Nat.pos_of_ne_zero hn) (Nat.pos_of_ne_zero hn)

theorem digitsVal_natDigits (n : Nat) (hn : n ≠ 0) :
    digitsVal (natDigits n) 0 = some n := by
  unfold natDigits
  rw [if_neg hn, natDigitsGo_val n n 0 (Nat.le_refl n)]
  simp

theorem parseUsize_natDigits {n : Nat} (h : n < 2 ^ 64) :
    parseUsize (natDigits n) = some n := by
  by_cases hn : n = 0
  · subst hn; decide
  · obtain ⟨c, cs, hcons⟩ : ∃ c cs, natDigits n = c :: cs := by
      cases hnd : natDigits n with
      | nil => exact absurd hnd (natDigits_ne_nil n)
      | cons c cs => exact ⟨c, cs, rfl⟩
    have hcnat : 48 ≤ c.toNat ∧ c.toNat ≤ 57 :=
      natDigits_toNat (hcons ▸ List.mem_cons_self c cs)
    have hcne : c ≠ '+' := by
      intro hplus
      rw [hplus] at hcnat
      simp at hcnat
    unfold parseUsize
    rw [hcons]
    have hbody :
        (match c :: cs with
          | '+' :: rest => rest
          | other => other) = c :: cs := by
      split
      · next heq => exact absurd (List.cons.inj heq).1 hcne
      · rfl
    rw [hbody]
    simp only [List.isEmpty_cons, ite_false, Bool.false_eq_true]
    rw [← hcons, digitsVal_natDigits n hn]
    have h' : n < 18446744073709551616 := by
      have : (2 : Nat) ^ 64 = 18446744073709551616 := by norm_num
      omega
    simp [h']

/-! ## Tokenizer lemmas -/

theorem splitWhitespaceGo_nows (l : List Char) :
    ∀ cur, (∀ c ∈ l, isRustWhitespace c = false) → cur ≠ [] →
      splitWhitespaceGo l cur = [cur.reverse ++ l] := by
  induction l with
  | nil =>
    intro cur _ hcur
    have : cur.isEmpty = false := by
      cases cur with
      | nil => exact absurd rfl hcur
      | cons a as => rfl
    simp [splitWhitespaceGo, this]
  | cons c cs ih =>
    intro cur h hcur
    have hc : isRustWhitespace c = false := h c (List.mem_cons_self c cs)
    simp only [splitWhitespaceGo, hc, Bool.false_eq_true, ite_false]
    rw [ih (c :: cur) (fun e he => h e (List.mem_cons_of_mem c he)) (by simp)]
    simp

theorem splitWhitespaceGo_start (l : List Char) (hne : l ≠ [])
    (h : ∀ c ∈ l, isRustWhitespace c = false) :
    splitWhitespaceGo l [] = [l] := by
  cases l with
  | nil => exact absurd rfl hne
  | cons c cs =>
    have hc : isRustWhitespace c = false := h c (List.mem_cons_self c cs)
    simp only [splitWhitespaceGo, hc, Bool.false_eq_true, ite_false]
    rw [splitWhitespaceGo_nows cs [c] (fun e he => h e (List.mem_cons_of_mem c he)) (by simp)]
    rfl

theorem splitWhitespace_colon_f (body : List Char) (hne : body ≠ [])
    (h : ∀ c ∈ body, isRustWhitespace c = false) :
    splitWhitespace (':' :: 'f' :: ' ' :: body) = [[':', 'f'], body] := by
  have hcolon : isRustWhitespace ':' = false := by decide
  have hf : isRustWhitespace 'f' = false := by decide
  have hsp : isRustWhitespace ' ' = true := by decide
  simp only [splitWhitespace, splitWhitespaceGo, hcolon, hf, hsp, Bool.false_eq_true,
    ite_false, ite_true, List.isEmpty_nil, List.isEmpty_cons]
  rw [splitWhitespaceGo_start body hne h]
  rfl

theorem splitOnDotDotGo_nodot (l : List Char) :
    ∀ cur, (∀ c ∈ l, c ≠ '.') → splitOnDotDotGo l cur = [cur.reverse ++ l] := by
  induction l with
  | nil => intro cur _; simp [splitOnDotDotGo]
  | cons c cs ih =>
    intro cur h
    have hc : c ≠ '.' := h c (List.mem_cons_self c cs)
    cases cs with
    | nil => simp [splitOnDotDotGo]
    | cons c2 cs2 =>
      rw [splitOnDotDotGo, if_neg (fun hp => hc hp.1)]
      rw [ih (c :: cur) (fun e he => h e (List.mem_cons_of_mem c he))]
      simp

theorem splitOnDotDotGo_mid (a : List Char) :
    ∀ cur (b : List Char), (∀ c ∈ a, c ≠ '.') →
      splitOnDotDotGo (a ++ '.' :: '.' :: b) cur
        = (cur.reverse ++ a) :: splitOnDotDotGo b [] := by
  induction a with
  | nil =>
    intro cur b _
    rw [List.nil_append, splitOnDotDotGo, if_pos ⟨rfl, rfl⟩]
    simp
  | cons c a' ih =>
    intro cur b h
    have hc : c ≠ '.' := h c (List.mem_cons_self c a')
    cases ha' : a' with
    | nil =>
      subst ha'
      rw [List.cons_append, List.nil_append, splitOnDotDotGo,
        if_neg (fun hp => hc hp.1), splitOnDotDotGo, if_pos ⟨rfl, rfl⟩]
      simp
    | cons c2 a'' =>
      subst ha'
      rw [List.cons_append, List.cons_append, splitOnDotDotGo,
        if_neg (fun hp => hc hp.1)]
      rw [← List.cons_append c2 a'' ('.' :: '.' :: b)]
      rw [ih (c :: cur) b (fun e he => h e (List.mem_cons_of_mem c he))]
      simp

theorem splitOnDotDot_pair (a b : List Char)
    (ha : ∀ c ∈ a, c ≠ '.') (hb : ∀ c ∈ b, c ≠ '.') :
    splitOnDotDot (a ++ '.' :: '.' :: b) = [a, b] := by
  unfold splitOnDotDot
  rw [splitOnDotDotGo_mid a [] b ha, splitOnDotDotGo_nodot b [] hb]
  rfl

theorem digit_not_ws {c : Char} (h1 : 48 ≤ c.toNat) (h2 : c.toNat ≤ 57) :
    isRustWhitespace c = false := by
  have hmem : ¬ (c.toNat ∈ ([0x09, 0x0A, 0x0B, 0x0C, 0x0D, 0x20, 0x85, 0xA0, 0x1680,
      0x2000, 0x2001, 0x2002, 0x2003, 0x2004, 0x2005, 0x2006, 0x2007,
      0x2008, 0x2009, 0x200A, 0x2028, 0x2029, 0x202F, 0x205F, 0x3000] : List Nat)) := by
    simp only [List.mem_cons, List.not_mem_nil, or_false]
    omega
  exact Bool.eq_false_iff.mpr (fun hc => hmem (List.elem_iff.mp hc))

theorem digit_ne_dot {c : Char} (h1 : 48 ≤ c.toNat) (_h2 : c.toNat ≤ 57) :
    c ≠ '.' := by
  intro hdot
  rw [hdot] at h1
  exact absurd h1 (by decide)

/-! ## Reduction lemmas for `exec_command` -/

/-- The range path of `exec_command`: when the input is not `":q"`, starts
with `":f"`, its second whitespace token is neither `"all"` nor
`"inspect"` and splits on `".."` into exactly two pieces that both parse
as `usize`, the filter is set to the parsed pair and the buffer cleared. -/
theorem exec_command_range_spec (s : State) (tok0 str : List Char)
    (toks : List (List Char)) (a b : List Char) (lower upper : Nat)
    (hq : s.input ≠ ":q".data)
    (hpre : ":f".data.isPrefixOf s.input = true)
    (hsplit : splitWhitespace s.input = tok0 :: str :: toks)
    (hall : str ≠ "all".data)
    (hinspect : str ≠ "inspect".data)
    (hdots : splitOnDotDot str = [a, b])
    (hlo : parseUsize a = some lower)
    (hhi : parseUsize b = some upper) :
    exec_command s
      = some ({ s with
                frame_state := some ⟨lower, upper⟩,
                input := [],
                character_index := 0 }, false) := by
  unfold exec_command exec_frame_commands
  rw [if_neg hq]
  simp only [hpre, ite_true, hsplit, if_neg hall, if_neg hinspect, hdots, hlo, hhi]
  rfl

/-- The `:f inspect max` path of `exec_command` on a non-empty frame
sequence. -/
theorem exec_command_inspect_max (s : State) (first : FrameTrace)
    (rest : List FrameTrace)
    (hin : s.input = ":f inspect max".data) (hdata : s.trace_data = first :: rest) :
    exec_command s
      = some ({ s with
                detail_state := some ⟨⟨(inspectLoop 0 first (first :: rest)).trace,
                  sortChildren (inspectLoop 0 first (first :: rest)).child_traces⟩⟩,
                input := [], character_index := 0 }, false) := by
  have hsplit : splitWhitespace (":f inspect max".data)
      = [":f".data, "inspect".data, "max".data] := by decide
  have hfi : exec_frame_inspect s (some ['m', 'a', 'x'])
      = some { s with
               detail_state := some ⟨⟨(inspectLoop 0 first (first :: rest)).trace,
                 sortChildren (inspectLoop 0 first (first :: rest)).child_traces⟩⟩ } := by
    unfold exec_frame_inspect
    rw [if_pos (by decide : (some ['m', 'a', 'x'] : Option (List Char)) = some "max".data),
      hdata]
  unfold exec_command exec_frame_commands
  rw [hin]
  rw [if_neg (by decide : ¬(":f inspect max".data = ":q".data))]
  simp only [show (":f".data.isPrefixOf ":f inspect max".data) = true from by decide,
    ite_true, hsplit]
  simp only [List.head?_cons, hfi, Option.map_some]
  rfl

/-- `exec_frame_inspect` never changes `trace_data`. -/
theorem exec_frame_inspect_trace_data (s : State) (cmd : Option (List Char))
    (s1 : State) (h : exec_frame_inspect s cmd = some s1) :
    s1.trace_data = s.trace_data := by
  unfold exec_frame_inspect at h
  split at h
  · split at h
    · exact absurd h (by simp)
    · rw [← Option.some.inj h]
  · rw [← Option.some.inj h]

/-! ## Claim C1: frame aggregator child assignment -/

/-- C1 counterexample: on the record sequence `[A(frame), B, C, A2(frame), D]`
the aggregator produces `[Frame{A,[]}, Frame{A2,[B,C]}]` — the children
attached to a frame are the records that *preceded* its frame record, and
the trailing accumulator `[D]` is discarded — so the output is not the
claimed `[Frame{A,[B,C]}, Frame{A2,[D]}]`. -/
theorem aggregate_children_follow_cex :
    (read_trace_aggregate [exFrameA, exChildB, exChildC, exFrameA2, exChildD]).map frameShape
        = [("A", []), ("A2", ["B", "C"])]
    ∧ (read_trace_aggregate [exFrameA, exChildB, exChildC, exFrameA2, exChildD]).map frameShape
        ≠ [("A", ["B", "C"]), ("A2", ["D"])] := by
  constructor
  · decide
  · decide

/-- C1 (amended): each Frame's children are exactly the records observed
after the previous frame-starting record (or from the start of input) and
before this Frame's own record, in arrival order; the accumulator left at
end of input is discarded, not assigned to the last Frame. -/
theorem aggregate_children_precede (pre : List Trace) (t : Trace) (rest : List Trace)
    (hpre : ∀ u ∈ pre, u.span.name ≠ "frame") (ht : t.span.name = "frame") :
    read_trace_aggregate (pre ++ t :: rest) = ⟨t, pre⟩ :: read_trace_aggregate rest := by
  unfold read_trace_aggregate
  rw [aggregateGo_append_frame pre [] t rest hpre ht]
  simp

/-- C1 witness: the amended statement evaluated on `[B, A(frame), C]`. -/
theorem aggregate_children_precede_witness :
    read_trace_aggregate ([exChildB] ++ exFrameA :: [exChildC])
      = ⟨exFrameA, [exChildB]⟩ :: read_trace_aggregate [exChildC] :=
  aggregate_children_precede [exChildB] exFrameA [exChildC] (by decide) (by decide)

/-! ## Claim C2: leading-record policy -/

/-- C2 counterexample: on `[B, A(frame)]` the record `B`, which precedes
the first frame-starting record, is *not* excluded — it becomes a child of
the first frame. -/
theorem leading_records_retained_cex :
    (read_trace_aggregate [exChildB, exFrameA]).map frameShape = [("A", ["B"])]
    ∧ ¬ (∀ f ∈ read_trace_aggregate [exChildB, exFrameA],
          ∀ c ∈ f.child_traces, c.target ≠ "B") := by
  constructor
  · decide
  · decide

/-- C2 (amended): the records that are dropped from the aggregated output
are those *after* the last frame-starting record (in particular the whole
input when no frame-starting record occurs at all); records before the
first frame-starting record become the first Frame's children. -/
theorem trailing_records_excluded (l trail : List Trace)
    (htrail : ∀ u ∈ trail, u.span.name ≠ "frame") :
    read_trace_aggregate (l ++ trail) = read_trace_aggregate l := by
  unfold read_trace_aggregate
  exact aggregateGo_append_trailing l [] trail htrail

/-- C2 witness: the amended statement evaluated on `[A(frame)] ++ [C, D]`. -/
theorem trailing_records_excluded_witness :
    read_trace_aggregate ([exFrameA] ++ [exChildC, exChildD])
      = read_trace_aggregate [exFrameA] :=
  trailing_records_excluded [exFrameA] [exChildC, exChildD] (by decide)

/-! ## Claim C3: duration codec unit mapping -/

/-- C3 (code bug): the unit table accepts `"ns"`, `"ms"`, `"s"`, `"m"`,
`"h"`, `"d"`, `"w"` with the specified nanosecond factors, but the
microsecond entry is the mojibake `"\xC2\xB5s"` (U+00C2 U+00B5 's'), so the
real microsecond suffix `"µs"` (U+00B5 's') — the one produced by the
tracing ecosystem and named by the claim — is rejected: parsing `1µs`
fails instead of yielding 1000 ns. -/
theorem duration_unit_table :
    TimeUnits.get "µs" = none
    ∧ TimeUnits.get "\xC2\xB5s" = some (TimeUnit.MicroSecond, ⟨1, 0⟩)
    ∧ ∀ n : Nat,
        parse_duration n "ns" = some (n * 1)
        ∧ parse_duration n "\xC2\xB5s" = some (n * 1000)
        ∧ parse_duration n "ms" = some (n * 1000000)
        ∧ parse_duration n "s" = some (n * 1000000000)
        ∧ parse_duration n "m" = some (n * 60000000000)
        ∧ parse_duration n "h" = some (n * 3600000000000)
        ∧ parse_duration n "d" = some (n * 86400000000000)
        ∧ parse_duration n "w" = some (n * 604800000000000)
        ∧ parse_duration n "µs" = none := by
  refine ⟨by decide, by decide, fun n => ?_⟩
  refine ⟨?_, ?_, ?_, ?_, ?_, ?_, ?_, ?_, ?_⟩ <;>
    simp [parse_duration, TimeUnits.get, TimeUnit.nanos]

/-! ## Claim C4: range command error handling -/

/-- The prior state used in the C4 counterexample: filter `(3, 4)` in
place and the buffer holding `:f 1..x`. -/
def exStBadRange : State := ⟨[], ":f 1..x".data, .Editing, 7, some ⟨3, 4⟩, none⟩

/-- C4 counterexample: on `:f 1..x` — the bound `x` is non-numeric but the
token splits on `".."` into exactly two pieces — `exec_command` does not
complete as a no-op: the `unwrap` on `"x".parse::<usize>()` panics
(modelled as `none`). -/
theorem range_malformed_noop_cex : exec_command exStBadRange = none := by decide

/-- C4 (amended): `:f <lower>..<upper>` with both bounds parsing as
`usize` sets the filter to `(lower, upper)` and clears the buffer; when
the argument does not split on `".."` into exactly two pieces the command
completes as a no-op on the filter; but when it does split into two
pieces and either piece fails to parse as `usize`, the program panics
instead of completing. -/
theorem range_command_behaviour :
    (∀ (s : State) (tok0 str : List Char) (toks : List (List Char))
        (a b : List Char) (lower upper : Nat),
        s.input ≠ ":q".data →
        ":f".data.isPrefixOf s.input = true →
        splitWhitespace s.input = tok0 :: str :: toks →
        str ≠ "all".data → str ≠ "inspect".data →
        splitOnDotDot str = [a, b] →
        parseUsize a = some lower → parseUsize b = some upper →
        exec_command s
          = some ({ s with
                    frame_state := some ⟨lower, upper⟩,
                    input := [],
                    character_index := 0 }, false))
    ∧ (∀ (s : State) (tok0 str : List Char) (toks : List (List Char)),
        s.input ≠ ":q".data →
        ":f".data.isPrefixOf s.input = true →
        splitWhitespace s.input = tok0 :: str :: toks →
        str ≠ "all".data → str ≠ "inspect".data →
        (splitOnDotDot str).length ≠ 2 →
        exec_command s
          = some ({ s with input := [], character_index := 0 }, false))
    ∧ (∀ (s : State) (tok0 str : List Char) (toks : List (List Char))
        (a b : List Char),
        s.input ≠ ":q".data →
        ":f".data.isPrefixOf s.input = true →
        splitWhitespace s.input = tok0 :: str :: toks →
        str ≠ "all".data → str ≠ "inspect".data →
        splitOnDotDot str = [a, b] →
        (parseUsize a = none ∨ parseUsize b = none) →
        exec_command s = none) := by
  refine ⟨?_, ?_, ?_⟩
  · intro s tok0 str toks a b lower upper hq hpre hsplit hall hinspect hdots hlo hhi
    exact exec_command_range_spec s tok0 str toks a b lower upper hq hpre hsplit hall
      hinspect hdots hlo hhi
  · intro s tok0 str toks hq hpre hsplit hall hinspect hlen
    unfold exec_command exec_frame_commands
    rw [if_neg hq]
    simp only [hpre, ite_true, hsplit, if_neg hall, if_neg hinspect]
    match hdots : splitOnDotDot str with
    | [] => rfl
    | [x] => rfl
    | [x, y] => exact absurd (by rw [hdots]; rfl) hlen
    | x :: y :: z :: t => rfl
  · intro s tok0 str toks a b hq hpre hsplit hall hinspect hdots hfail
    unfold exec_command exec_frame_commands
    rw [if_neg hq]
    simp only [hpre, ite_true, hsplit, if_neg hall, if_neg hinspect, hdots]
    rcases hfail with hfa | hfb
    · rw [hfa]
      rcases hb : parseUsize b with _ | u <;> rfl
    · rw [hfb]
      rcases ha : parseUsize a with _ | u <;> rfl

/-- The prior state used in the C4 witness for the successful range path. -/
def exStRangeOk : State := ⟨[], ":f 2..5".data, .Editing, 7, none, none⟩

/-- The prior state used in the C4 witness for the wrong-token-count path. -/
def exStBogus : State := ⟨[], ":f bogus".data, .Editing, 8, some ⟨1, 2⟩, none⟩

/-- C4 witness: `:f 2..5` sets the filter to `(2,5)`; `:f bogus` leaves
the filter `(1,2)` untouched; `:f 1..x` panics. -/
theorem range_command_behaviour_witness :
    exec_command exStRangeOk
      = some (⟨[], [], .Editing, 0, some ⟨2, 5⟩, none⟩, false)
    ∧ exec_command exStBogus
      = some (⟨[], [], .Editing, 0, some ⟨1, 2⟩, none⟩, false)
    ∧ exec_command exStBadRange = none := by
  refine ⟨?_, ?_, ?_⟩
  · exact range_command_behaviour.1 exStRangeOk ":f".data "2..5".data [] "2".data "5".data
      2 5 (by decide) (by decide) (by decide) (by decide) (by decide) (by decide)
      (by decide) (by decide)
  · exact range_command_behaviour.2.1 exStBogus ":f".data "bogus".data []
      (by decide) (by decide) (by decide) (by decide) (by decide) (by decide)
  · exact range_command_behaviour.2.2 exStBadRange ":f".data "1..x".data []
      "1".data "x".data (by decide) (by decide) (by decide) (by decide) (by decide)
      (by decide) (Or.inr (by decide))

/-! ## Claim C5: `:f inspect max` on an empty frame sequence -/

/-- The state used in the C5 counterexample: no frames, buffer
`:f inspect max`. -/
def exStEmptyInspect : State := ⟨[], ":f inspect max".data, .Editing, 14, none, none⟩

/-- C5 counterexample: with an empty frame sequence, `:f inspect max` does
not complete without failure — `&self.state.trace_data[0]` is an
out-of-bounds index and the program panics (modelled as `none`). -/
theorem inspect_empty_silent_cex : exec_command exStEmptyInspect = none := by decide

/-- C5 (amended): executing `:f inspect max` when the aggregated frame
sequence is empty panics on the out-of-bounds index `trace_data[0]`
instead of completing; no completed state exists. -/
theorem inspect_empty_panics (s : State)
    (hdata : s.trace_data = []) (hin : s.input = ":f inspect max".data) :
    exec_command s = none := by
  have hsplit : splitWhitespace (":f inspect max".data)
      = [":f".data, "inspect".data, "max".data] := by decide
  have hfi : exec_frame_inspect s (some ['m', 'a', 'x']) = none := by
    unfold exec_frame_inspect
    rw [if_pos (by decide : (some ['m', 'a', 'x'] : Option (List Char)) = some "max".data),
      hdata]
  unfold exec_command exec_frame_commands
  rw [hin]
  rw [if_neg (by decide : ¬(":f inspect max".data = ":q".data))]
  simp only [show (":f".data.isPrefixOf ":f inspect max".data) = true from by decide,
    ite_true, hsplit]
  simp only [List.head?_cons, hfi]
  rfl

/-- C5 witness: the amended statement evaluated on a concrete empty-frame
state. -/
theorem inspect_empty_panics_witness :
    exec_command ⟨[], ":f inspect max".data, .Normal, 0, some ⟨0, 1⟩, none⟩ = none :=
  inspect_empty_panics ⟨[], ":f inspect max".data, .Normal, 0, some ⟨0, 1⟩, none⟩ rfl rfl

/-! ## Claims C6 and C7: `:f inspect max` selection and child ordering -/

/-- A frame with the given target, busy nanoseconds and children. -/
def mkFrame (tgt : String) (busy : Nat) (children : List Trace) : FrameTrace :=
  ⟨⟨tgt, ⟨"close", busy, 0⟩, ⟨some 0, "frame"⟩⟩, children⟩

/-- A child record with the given target and busy nanoseconds. -/
def mkChild (tgt : String) (busy : Nat) : Trace :=
  ⟨tgt, ⟨"close", busy, 0⟩, ⟨none, "work"⟩⟩

/-- Four frames with total durations 5 ms, 12 ms, 12 ms and 3 ms; the
first 12 ms frame carries unsorted children with duplicate durations. -/
def exFrames : List FrameTrace :=
  [mkFrame "f0" 5000000 [],
   mkFrame "f1" 12000000
     [mkChild "a" 3, mkChild "b" 7, mkChild "c" 3, mkChild "d" 9, mkChild "e" 7],
   mkFrame "f2" 12000000 [],
   mkFrame "f3" 3000000 []]

/-- The state used in the C6 and C7 witnesses. -/
def exStInspect : State := ⟨exFrames, ":f inspect max".data, .Editing, 14, none, none⟩

/-- C6: on a non-empty frame sequence, `:f inspect max` stores a detail
snapshot of a frame `sel` that is a *first* occurrence of the maximal
`total_duration`: every frame before `sel` is strictly smaller and no
frame anywhere is larger (strict greater-than scan from `max = 0`). -/
theorem inspect_max_first_occurrence (s : State) (first : FrameTrace)
    (rest : List FrameTrace)
    (hin : s.input = ":f inspect max".data) (hdata : s.trace_data = first :: rest) :
    ∃ sel pre post,
      exec_command s
        = some ({ s with
                  detail_state := some ⟨⟨sel.trace, sortChildren sel.child_traces⟩⟩,
                  input := [],
                  character_index := 0 }, false)
      ∧ s.trace_data = pre ++ sel :: post
      ∧ (∀ ft ∈ pre, ft.trace.total_duration < sel.trace.total_duration)
      ∧ (∀ ft ∈ s.trace_data, ft.trace.total_duration ≤ sel.trace.total_duration) := by
  obtain ⟨pre, post, hdec, hpre, hall⟩ := inspect_select_spec first rest
  refine ⟨inspectLoop 0 first (first :: rest), pre, post,
    exec_command_inspect_max s first rest hin hdata, ?_, hpre, ?_⟩
  · rw [hdata]; exact hdec
  · intro ft hft
    rw [hdata] at hft
    exact hall ft hft

/-- C6 witness: on frames with totals `[5ms, 12ms, 12ms, 3ms]` the frame
at index 1 (`"f1"`, the first occurrence of the maximum) is selected. -/
theorem inspect_max_first_occurrence_witness :
    (∃ sel pre post,
      exec_command exStInspect
        = some ({ exStInspect with
                  detail_state := some ⟨⟨sel.trace, sortChildren sel.child_traces⟩⟩,
                  input := [],
                  character_index := 0 }, false)
      ∧ exStInspect.trace_data = pre ++ sel :: post
      ∧ (∀ ft ∈ pre, ft.trace.total_duration < sel.trace.total_duration)
      ∧ (∀ ft ∈ exStInspect.trace_data,
          ft.trace.total_duration ≤ sel.trace.total_duration))
    ∧ (exec_command exStInspect).map
        (fun r => r.1.detail_state.map (fun d => d.frame_trace.trace.target))
      = some (some "f1") := by
  constructor
  · exact inspect_max_first_occurrence exStInspect _ _ rfl rfl
  · decide

/-- C7: the children stored in the detail snapshot produced by
`:f inspect max` are a permutation of the selected frame's children,
sorted by descending `total_duration`, and stable: for every duration
value the sub-sequence of children having that duration is preserved
verbatim. -/
theorem inspect_children_sorted_stable (s : State) (first : FrameTrace)
    (rest : List FrameTrace)
    (hin : s.input = ":f inspect max".data) (hdata : s.trace_data = first :: rest) :
    ∃ sel,
      sel ∈ s.trace_data
      ∧ exec_command s
          = some ({ s with
                    detail_state := some ⟨⟨sel.trace, sortChildren sel.child_traces⟩⟩,
                    input := [],
                    character_index := 0 }, false)
      ∧ (sortChildren sel.child_traces).Perm sel.child_traces
      ∧ (sortChildren sel.child_traces).Pairwise DurDesc
      ∧ ∀ d, (sortChildren sel.child_traces).filter (fun c => c.total_duration == d)
            = sel.child_traces.filter (fun c => c.total_duration == d) := by
  obtain ⟨pre, post, hdec, _, _⟩ := inspect_select_spec first rest
  refine ⟨inspectLoop 0 first (first :: rest), ?_,
    exec_command_inspect_max s first rest hin hdata,
    sortChildren_perm _, sortChildren_pairwise _, fun d => sortChildren_filter _ d⟩
  rw [hdata]
  have hmem : inspectLoop 0 first (first :: rest)
      ∈ pre ++ inspectLoop 0 first (first :: rest) :: post :=
    List.mem_append_right pre (List.mem_cons_self _ post)
  rw [← hdec] at hmem
  exact hmem

/-- C7 witness: the children `[a3, b7, c3, d9, e7]` of the selected frame
come out as `[d9, b7, e7, a3, c3]` — descending, with the 7 ns pair and
the 3 ns pair each in original relative order. -/
theorem inspect_children_sorted_stable_witness :
    (∃ sel,
      sel ∈ exStInspect.trace_data
      ∧ exec_command exStInspect
          = some ({ exStInspect with
                    detail_state := some ⟨⟨sel.trace, sortChildren sel.child_traces⟩⟩,
                    input := [],
                    character_index := 0 }, false)
      ∧ (sortChildren sel.child_traces).Perm sel.child_traces
      ∧ (sortChildren sel.child_traces).Pairwise DurDesc
      ∧ ∀ d, (sortChildren sel.child_traces).filter (fun c => c.total_duration == d)
            = sel.child_traces.filter (fun c => c.total_duration == d))
    ∧ (exec_command exStInspect).map
        (fun r => r.1.detail_state.map
          (fun d => d.frame_trace.child_traces.map Trace.target))
      = some (some ["d", "b", "e", "a", "c"]) := by
  constructor
  · exact inspect_children_sorted_stable exStInspect _ _ rfl rfl
  · decide

/-! ## Claim C8: the frame collection is never mutated -/

theorem exec_frame_commands_trace_data (s : State) (s1 : State)
    (h : exec_frame_commands s = some s1) : s1.trace_data = s.trace_data := by
  unfold exec_frame_commands at h
  repeat' split at h
  all_goals
    first
      | rw [← Option.some.inj h]
      | exact exec_frame_inspect_trace_data s _ s1 h
      | simp at h

/-- C8: every command execution that completes leaves the aggregated frame
sequence `trace_data` exactly as it was; the detail snapshot is a copy, so
no command aliases or mutates the canonical frame collection. -/
theorem exec_command_preserves_trace_data (s : State) (r : State × Bool)
    (h : exec_command s = some r) : r.1.trace_data = s.trace_data := by
  unfold exec_command at h
  by_cases hq : s.input = ":q".data
  · rw [if_pos hq] at h
    rw [← Option.some.inj h]
  · rw [if_neg hq] at h
    obtain ⟨s1, hs1, hfr⟩ := Option.map_eq_some'.mp h
    rw [← hfr]
    exact exec_frame_commands_trace_data s s1 hs1

/-- C8 witness: the range command `:f 2..5` leaves `trace_data`
untouched. -/
theorem exec_command_preserves_trace_data_witness :
    (((⟨[], [], .Editing, 0, some ⟨2, 5⟩, none⟩ : State), false)).1.trace_data
      = exStRangeOk.trace_data :=
  exec_command_preserves_trace_data exStRangeOk
    ((⟨[], [], .Editing, 0, some ⟨2, 5⟩, none⟩ : State), false) (by decide)

/-! ## Claim C9: input-buffer clearing -/

/-- The state used in the C9 counterexample: buffer `":q"`, cursor at 2. -/
def exStQuit : State := ⟨[], ":q".data, .Editing, 2, none, none⟩

/-- C9 counterexample: `":q"` returns from `exec_command` *before* the
buffer-clearing code runs — the returned state still holds input `":q"`
and cursor index 2, so not every recognized command clears the buffer. -/
theorem quit_clears_input_cex :
    exec_command exStQuit = some (exStQuit, true)
    ∧ exStQuit.input ≠ [] ∧ exStQuit.character_index ≠ 0 := by decide

/-- C9 (amended): every command input other than `":q"` that completes
ends with the input buffer cleared and the cursor index reset to 0;
`":q"` terminates immediately, returning the state — buffer included —
unchanged. -/
theorem input_clearing_behaviour (s : State) (r : State × Bool)
    (h : exec_command s = some r) :
    (s.input = ":q".data → r = (s, true))
    ∧ (s.input ≠ ":q".data → r.1.input = [] ∧ r.1.character_index = 0) := by
  unfold exec_command at h
  by_cases hq : s.input = ":q".data
  · rw [if_pos hq] at h
    exact ⟨fun _ => (Option.some.inj h).symm, fun hne => absurd hq hne⟩
  · rw [if_neg hq] at h
    obtain ⟨s1, _, hfr⟩ := Option.map_eq_some'.mp h
    exact ⟨fun hqq => absurd hqq hq, fun _ => by rw [← hfr]; exact ⟨rfl, rfl⟩⟩

/-- C9 witness: `:f bogus` (not `":q"`) completes with an empty buffer and
cursor 0. -/
theorem input_clearing_behaviour_witness :
    (((⟨[], [], .Editing, 0, some ⟨1, 2⟩, none⟩ : State), false)).1.input = []
    ∧ (((⟨[], [], .Editing, 0, some ⟨1, 2⟩, none⟩ : State), false)).1.character_index = 0 :=
  (input_clearing_behaviour exStBogus
    ((⟨[], [], .Editing, 0, some ⟨1, 2⟩, none⟩ : State), false) (by decide)).2 (by decide)

/-! ## Claim C10: range bounds are not validated -/

/-- C10: for any `usize` values `lower` and `upper` — including
`lower > upper` and bounds beyond the number of aggregated frames —
`:f <lower>..<upper>` sets the filter to `(lower, upper)`: no ordering or
range check is applied. -/
theorem range_bounds_unchecked (s : State) (lower upper : Nat)
    (hlo : lower < 2 ^ 64) (hhi : upper < 2 ^ 64)
    (hin : s.input
      = ':' :: 'f' :: ' ' :: (natDigits lower ++ '.' :: '.' :: natDigits upper)) :
    exec_command s
      = some ({ s with
                frame_state := some ⟨lower, upper⟩,
                input := [],
                character_index := 0 }, false) := by
  have hdigits_ws : ∀ {m : Nat} {c : Char}, c ∈ natDigits m → isRustWhitespace c = false := by
    intro m c hc
    obtain ⟨h1, h2⟩ := natDigits_toNat hc
    exact digit_not_ws h1 h2
  have hdigits_dot : ∀ {m : Nat} {c : Char}, c ∈ natDigits m → c ≠ '.' := by
    intro m c hc
    obtain ⟨h1, h2⟩ := natDigits_toNat hc
    exact digit_ne_dot h1 h2
  have hbody_ne : natDigits lower ++ '.' :: '.' :: natDigits upper ≠ [] := by simp
  have hbody_nows :
      ∀ c ∈ natDigits lower ++ '.' :: '.' :: natDigits upper,
        isRustWhitespace c = false := by
    intro c hc
    rcases List.mem_append.mp hc with hcl | hcr
    · exact hdigits_ws hcl
    · rcases List.mem_cons.mp hcr with rfl | hcr2
      · decide
      · rcases List.mem_cons.mp hcr2 with rfl | hcr3
        · decide
        · exact hdigits_ws hcr3
  have hsplitw : splitWhitespace s.input
      = [[':', 'f'], natDigits lower ++ '.' :: '.' :: natDigits upper] := by
    rw [hin]
    exact splitWhitespace_colon_f _ hbody_ne hbody_nows
  have hdots : splitOnDotDot (natDigits lower ++ '.' :: '.' :: natDigits upper)
      = [natDigits lower, natDigits upper] :=
    splitOnDotDot_pair _ _ (fun _ hc => hdigits_dot hc) (fun _ hc => hdigits_dot hc)
  have hq : s.input ≠ ":q".data := by
    rw [hin]
    intro hcontra
    injection hcontra with h1 h2
    injection h2 with h3 h4
    exact absurd h3 (by decide)
  have hpre : ":f".data.isPrefixOf s.input = true := by
    rw [hin]; rfl
  have hhead : ∀ {m : Nat} {other : List Char},
      (∀ c ∈ other, 97 ≤ c.toNat) →
      natDigits m ++ '.' :: '.' :: natDigits upper ≠ other := by
    intro m other hother hcontra
    cases hnd : natDigits m with
    | nil => exact absurd hnd (natDigits_ne_nil m)
    | cons c cs =>
      rw [hnd] at hcontra
      obtain ⟨h1, h2⟩ := natDigits_toNat (hnd ▸ List.mem_cons_self c cs)
      cases other with
      | nil => exact absurd hcontra (by simp)
      | cons o os =>
        injection hcontra with hco _
        have := hother o (List.mem_cons_self o os)
        rw [← hco] at this
        omega
  have hne_all : natDigits lower ++ '.' :: '.' :: natDigits upper ≠ "all".data := by
    refine hhead ?_
    intro c hc
    rcases List.mem_cons.mp hc with rfl | hc2
    · decide
    · rcases List.mem_cons.mp hc2 with rfl | hc3
      · decide
      · rcases List.mem_cons.mp hc3 with rfl | hc4
        · decide
        · simp at hc4
  have hne_inspect : natDigits lower ++ '.' :: '.' :: natDigits upper
      ≠ "inspect".data := by
    refine hhead ?_
    intro c hc
    rw [show "inspect".data = ['i', 'n', 's', 'p', 'e', 'c', 't'] from rfl] at hc
    fin_cases hc <;> decide
  exact exec_command_range_spec s [':', 'f'] _ [] (natDigits lower) (natDigits upper)
    lower upper hq hpre hsplitw hne_all hne_inspect hdots
    (parseUsize_natDigits hlo) (parseUsize_natDigits hhi)

/-- The state used in the C10 witness: filter bounds `7..3` with
`lower > upper` and an empty frame sequence. -/
def exStRangeWild : State := ⟨[], ":f 7..3".data, .Editing, 7, none, none⟩

/-- C10 witness: `:f 7..3` (inverted bounds, no frames loaded) still sets
the filter to `(7, 3)`. -/
theorem range_bounds_unchecked_witness :
    exec_command exStRangeWild
      = some (⟨[], [], .Editing, 0, some ⟨7, 3⟩, none⟩, false) :=
  range_bounds_unchecked exStRangeWild 7 3 (by norm_num) (by norm_num) (by decide)

end Terminus
